import Mathlib

/-!
Shallow embedding of the Currency-Exchange-Analyzer core
(`CurrencyPair.cpp`, `CurrencyAnalyzer.cpp`).

C++ `double` values are modelled as exact rationals (`ℚ`); `std::string`
as `String`; the `std::unordered_map<std::string,double> baseRates` as an
association list with overwrite-or-append assignment (`tset`) and
first-match lookup (`tfind`).  Division by zero in `ℚ` yields `0` where
IEEE doubles yield `±inf`/`NaN`; every theorem below that touches a
division notes why its conclusion is insensitive to that difference.
-/

namespace CurrencyExchange

/-- The `CurrencyPair` record: pair code, the two currency codes parsed
from it, price, and the six change metrics, plus group and timestamp. -/
structure CurrencyPair where
  pairCode : String
  baseCurrency : String
  quoteCurrency : String
  price : ℚ
  dayChange : ℚ
  percentChange : ℚ
  weeklyChange : ℚ
  monthlyChange : ℚ
  ytdChange : ℚ
  yoyChange : ℚ
  group : String
  timestamp : String
deriving DecidableEq

/-- `pairCode.find('/')` followed by the two `substr` calls of the C++
constructors: split a character list at the FIRST `'/'`; `none` when no
separator occurs. -/
def splitAtSlash : List Char → Option (List Char × List Char)
  | [] => none
  | c :: rest =>
    if c = '/' then some ([], rest)
    else
      match splitAtSlash rest with
      | some (b, q) => some (c :: b, q)
      | none => none

/-- The full C++ constructor `CurrencyPair(pairCode, price, dayChange, …,
group, timestamp)`: stores all fields and parses base/quote currency from
the pair code at its first `'/'` (both stay `""` when there is none). -/
def mkCurrencyPair (code : String) (price dayChange percentChange weeklyChange
    monthlyChange ytdChange yoyChange : ℚ) (group timestamp : String) : CurrencyPair :=
  match splitAtSlash code.data with
  | some (b, q) =>
      ⟨code, String.mk b, String.mk q, price, dayChange, percentChange,
       weeklyChange, monthlyChange, ytdChange, yoyChange, group, timestamp⟩
  | none =>
      ⟨code, "", "", price, dayChange, percentChange,
       weeklyChange, monthlyChange, ytdChange, yoyChange, group, timestamp⟩

/-- The two-argument C++ constructor `CurrencyPair(pairCode, price)`:
all change metrics zero, empty group and timestamp. -/
def mkPair (code : String) (price : ℚ) : CurrencyPair :=
  mkCurrencyPair code price 0 0 0 0 0 0 "" ""

/-- `CurrencyPair::getChangeByMetric`: string-keyed metric dispatch,
unknown names yield `0.0`. -/
def getChangeByMetric (p : CurrencyPair) (metric : String) : ℚ :=
  if metric = "Percent Change" then p.percentChange
  else if metric = "Weekly" then p.weeklyChange
  else if metric = "Monthly" then p.monthlyChange
  else if metric = "YTD" then p.ytdChange
  else if metric = "YoY" then p.yoyChange
  else 0

/-- The percentage-inversion lambda inside `CurrencyPair::getInvertedPair`:
`(1/(1 + change/100) - 1) * 100`. -/
def invertPercentage (change : ℚ) : ℚ :=
  (1 / (1 + change / 100) - 1) * 100

/-- `CurrencyPair::getInvertedPair`: builds `quote/base` with reciprocal
price, day change `-dayChange/price²`, and every percentage metric pushed
through `invertPercentage`; the result goes through the full constructor,
so its base/quote fields are re-parsed from the new pair code. -/
def getInvertedPair (p : CurrencyPair) : CurrencyPair :=
  mkCurrencyPair (p.quoteCurrency ++ "/" ++ p.baseCurrency)
    (1 / p.price)
    (-p.dayChange / (p.price * p.price))
    (invertPercentage p.percentChange)
    (invertPercentage p.weeklyChange)
    (invertPercentage p.monthlyChange)
    (invertPercentage p.ytdChange)
    (invertPercentage p.yoyChange)
    p.group p.timestamp

/-- The base-rate map `std::unordered_map<std::string,double>` as an
association list. Hash order never matters below: only lookup, overwrite
and key-set size are used. -/
abbrev RateTable := List (String × ℚ)

/-- Map lookup (`find`): first entry with the given key. -/
def tfind : RateTable → String → Option ℚ
  | [], _ => none
  | (k, v) :: rest, key => if k = key then some v else tfind rest key

/-- Map assignment `table[key] = val`: overwrite the existing entry or
append a fresh one. -/
def tset : RateTable → String → ℚ → RateTable
  | [], key, val => [(key, val)]
  | (k, v) :: rest, key, val =>
    if k = key then (k, val) :: rest else (k, v) :: tset rest key val

/-- One quote of the seeding loop of `calculateBaseRates`: base `"USD"`
seeds `table[quote] = price`; else quote `"USD"` seeds
`table[base] = 1/price`; otherwise no effect. -/
def seedStep (t : RateTable) (p : CurrencyPair) : RateTable :=
  if p.baseCurrency = "USD" then tset t p.quoteCurrency p.price
  else if p.quoteCurrency = "USD" then tset t p.baseCurrency (1 / p.price)
  else t

/-- The seeding phase of `calculateBaseRates`: the seeding loop over all
quotes followed by the unconditional `baseRates["USD"] = 1.0`. -/
def seedRates (pairs : List CurrencyPair) : RateTable :=
  tset (pairs.foldl seedStep []) "USD" 1

/-- One quote of the propagation loop: add the missing side of the pair
when exactly one side is already in the table, setting the
`ratesUpdated` flag; never overwrite an existing entry. -/
def passStep (acc : RateTable × Bool) (p : CurrencyPair) : RateTable × Bool :=
  if (tfind acc.1 p.baseCurrency).isSome && (tfind acc.1 p.quoteCurrency).isNone then
    (tset acc.1 p.quoteCurrency ((tfind acc.1 p.baseCurrency).getD 0 * p.price), true)
  else if (tfind acc.1 p.quoteCurrency).isSome && (tfind acc.1 p.baseCurrency).isNone then
    (tset acc.1 p.baseCurrency ((tfind acc.1 p.quoteCurrency).getD 0 / p.price), true)
  else acc

/-- One full pass of the `while (ratesUpdated)` loop over the quote
collection, starting with the flag reset to `false`. -/
def propagatePass (pairs : List CurrencyPair) (t : RateTable) : RateTable × Bool :=
  pairs.foldl passStep (t, false)

/-- The `while (ratesUpdated)` loop, given enough fuel.  The C++ loop is
unbounded; the termination theorem below shows the fuel used by
`calculateBaseRates` always reaches the pass that reports no change. -/
def propagate (pairs : List CurrencyPair) : Nat → RateTable → RateTable
  | 0, t => t
  | fuel + 1, t =>
    let r := propagatePass pairs t
    if r.2 then propagate pairs fuel r.1 else r.1

/-- Fuel that dominates the table growth: the table can never exceed one
entry per currency mentioned plus the unconditional USD entry. -/
def ratesFuel (pairs : List CurrencyPair) : Nat := 2 * pairs.length + 2

/-- `CurrencyAnalyzer::calculateBaseRates`: seed from direct/inverse USD
quotes, force `USD ↦ 1.0`, then propagate until a pass changes nothing. -/
def calculateBaseRates (pairs : List CurrencyPair) : RateTable :=
  propagate pairs (ratesFuel pairs) (seedRates pairs)

/-- The linear scans of `getExchangeRate`: price of the first quote whose
pair code equals `code`. -/
def findPairPrice : List CurrencyPair → String → Option ℚ
  | [], _ => none
  | p :: rest, code => if p.pairCode = code then some p.price else findPairPrice rest code

/-- The fallback loop of `calculateCrossCurrencyRate`: a SINGLE scan that
returns the price of the first quote matching the direct code, or the
reciprocal for the first quote matching the inverse code — whichever
match comes first in the collection; `0.0` when neither occurs. -/
def crossLoop : List CurrencyPair → String → String → ℚ
  | [], _, _ => 0
  | p :: rest, direct, inverse =>
    if p.pairCode = direct then p.price
    else if p.pairCode = inverse then 1 / p.price
    else crossLoop rest direct inverse

/-- `CurrencyAnalyzer::calculateCrossCurrencyRate`: if BOTH currencies
have base-rate entries, chain through USD (`table[to]/table[from]`);
only otherwise scan the quotes for a direct or inverse pair; `0.0`
sentinel when no path exists. -/
def calculateCrossCurrencyRate (pairs : List CurrencyPair) (baseRates : RateTable)
    (fromCurrency toCurrency : String) : ℚ :=
  if (tfind baseRates fromCurrency).isSome && (tfind baseRates toCurrency).isSome then
    (tfind baseRates toCurrency).getD 0 / (tfind baseRates fromCurrency).getD 0
  else
    crossLoop pairs (fromCurrency ++ "/" ++ toCurrency) (toCurrency ++ "/" ++ fromCurrency)

/-- `CurrencyAnalyzer::getExchangeRate`: direct quote first, then inverse
quote (reciprocal), then the USD-chain cross rate. -/
def getExchangeRate (pairs : List CurrencyPair) (baseRates : RateTable)
    (fromCurrency toCurrency : String) : ℚ :=
  match findPairPrice pairs (fromCurrency ++ "/" ++ toCurrency) with
  | some price => price
  | none =>
    match findPairPrice pairs (toCurrency ++ "/" ++ fromCurrency) with
    | some price => 1 / price
    | none => calculateCrossCurrencyRate pairs baseRates fromCurrency toCurrency

/-- Descending comparison used by `getTopPerformers`.  The C++ code calls
`std::sort` with the strict comparator `a.m > b.m`; its result is some
permutation ordered non-increasingly by the metric, modelled here as a
merge sort under the reflexive closure `b.m ≤ a.m`.  (None of the
theorems below relies on tie order; `std::sort` guarantees none.) -/
def sortDesc (metric : String) (pairs : List CurrencyPair) : List CurrencyPair :=
  pairs.mergeSort (fun a b => decide (getChangeByMetric b metric ≤ getChangeByMetric a metric))

/-- Ascending sort used by `getWorstPerformers` (comparator `a.m < b.m`). -/
def sortAsc (metric : String) (pairs : List CurrencyPair) : List CurrencyPair :=
  pairs.mergeSort (fun a b => decide (getChangeByMetric a metric ≤ getChangeByMetric b metric))

/-- `resultCount = std::min(count, (int)size)` — may be negative. -/
def resultCount (count : Int) (size : Nat) : Int := min count (size : Int)

/-- `CurrencyAnalyzer::getTopPerformers`: sort a copy descending by the
metric and return the first `resultCount = min(count, size)` elements.
A negative `resultCount` makes `vector(begin(), begin() + resultCount)`
an invalid iterator range — undefined behaviour, modelled as `none`. -/
def getTopPerformers (metric : String) (count : Int)
    (pairs : List CurrencyPair) : Option (List CurrencyPair) :=
  if resultCount count pairs.length < 0 then none
  else some ((sortDesc metric pairs).take (resultCount count pairs.length).toNat)

/-- `CurrencyAnalyzer::getWorstPerformers`: same slicing, ascending sort. -/
def getWorstPerformers (metric : String) (count : Int)
    (pairs : List CurrencyPair) : Option (List CurrencyPair) :=
  if resultCount count pairs.length < 0 then none
  else some ((sortAsc metric pairs).take (resultCount count pairs.length).toNat)

/-- Both currency codes of every quote, in collection order (input of the
`std::set` of `getAvailableCurrencies`). -/
def collectCurrencies : List CurrencyPair → List String
  | [] => []
  | p :: rest => p.baseCurrency :: p.quoteCurrency :: collectCurrencies rest

/-- `CurrencyAnalyzer::getAvailableCurrencies`: the distinct currency
codes (the `std::set` iterates them in sorted order; only membership is
used by the theorems below). -/
def availableCurrencies (pairs : List CurrencyPair) : List String :=
  (collectCurrencies pairs).dedup

/-- The path string `A→B→C→A` rendered by the arbitrage scan. -/
def pathString (a b c : String) : String :=
  a ++ "→" ++ b ++ "→" ++ c ++ "→" ++ a

/-- Body of the innermost arbitrage loop for one candidate triple
(the C++ locals `rateAB`, `rateBC`, `rateCA`, `profit` are inlined):
skip repeated currencies, skip if any leg is `≤ 0`, emit the path and
`profit = (rateAB·rateBC·rateCA − 1) × 100` when `profit > 1.0`. -/
def tripleCheck (pairs : List CurrencyPair) (t : RateTable)
    (a b c : String) : Option (String × ℚ) :=
  if a = c ∨ b = c then none
  else if calculateCrossCurrencyRate pairs t a b ≤ 0 ∨
      calculateCrossCurrencyRate pairs t b c ≤ 0 ∨
      calculateCrossCurrencyRate pairs t c a ≤ 0 then none
  else if 1 < (calculateCrossCurrencyRate pairs t a b * calculateCrossCurrencyRate pairs t b c *
      calculateCrossCurrencyRate pairs t c a - 1) * 100 then
    some (pathString a b c,
      (calculateCrossCurrencyRate pairs t a b * calculateCrossCurrencyRate pairs t b c *
        calculateCrossCurrencyRate pairs t c a - 1) * 100)
  else none

/-- `CurrencyAnalyzer::findArbitrageOpportunities`: the three nested
loops over the available currencies. -/
def findArbitrageOpportunities (pairs : List CurrencyPair) (t : RateTable) :
    List (String × ℚ) :=
  (availableCurrencies pairs).flatMap fun a =>
    (availableCurrencies pairs).flatMap fun b =>
      if a = b then []
      else (availableCurrencies pairs).filterMap fun c => tripleCheck pairs t a b c

example : splitAtSlash "USD/INR".data = some ("USD".data, "INR".data) := by decide
example : (mkPair "EUR/USD" 2).baseCurrency = "EUR" := by decide
example : calculateBaseRates [mkPair "USD/EUR" 2, mkPair "GBP/USD" 4] =
    [("EUR", 2), ("GBP", 1/4), ("USD", 1)] := rfl

/-! ### Association-list facts about the base-rate map -/

theorem tfind_tset_self (t : RateTable) (k : String) (v : ℚ) :
    tfind (tset t k v) k = some v := by
  induction t with
  | nil => simp [tset, tfind]
  | cons kv rest ih =>
    obtain ⟨k', v'⟩ := kv
    by_cases h : k' = k
    · subst h; simp [tset, tfind]
    · simp [tset, tfind, h, ih]

theorem tfind_tset_ne (t : RateTable) (k' k : String) (v : ℚ) (h : k' ≠ k) :
    tfind (tset t k' v) k = tfind t k := by
  induction t with
  | nil => simp [tset, tfind, h]
  | cons kv rest ih =>
    obtain ⟨k₀, v₀⟩ := kv
    by_cases h₀ : k₀ = k'
    · subst h₀
      simp [tset, tfind, h]
    · simp only [tset, if_neg h₀]
      by_cases hk : k₀ = k
      · simp [tfind, hk]
      · simp [tfind, hk, ih]

/-- A propagation step never disturbs an entry that is already present. -/
theorem passStep_preserves (acc : RateTable × Bool) (p : CurrencyPair)
    (k : String) (v : ℚ) (h : tfind acc.1 k = some v) :
    tfind (passStep acc p).1 k = some v := by
  unfold passStep
  split
  · next h₁ =>
      have hq : p.quoteCurrency ≠ k := by
        intro hqk
        rw [Bool.and_eq_true] at h₁
        rw [hqk, h, Option.isNone_some] at h₁
        exact Bool.false_ne_true h₁.2
      simpa [tfind_tset_ne _ _ _ _ hq] using h
  · split
    · next h₂ =>
        have hb : p.baseCurrency ≠ k := by
          intro hbk
          rw [Bool.and_eq_true] at h₂
          rw [hbk, h, Option.isNone_some] at h₂
          exact Bool.false_ne_true h₂.2
        simpa [tfind_tset_ne _ _ _ _ hb] using h
    · exact h

theorem foldl_passStep_preserves (ps : List CurrencyPair) (acc : RateTable × Bool)
    (k : String) (v : ℚ) (h : tfind acc.1 k = some v) :
    tfind (ps.foldl passStep acc).1 k = some v := by
  induction ps generalizing acc with
  | nil => exact h
  | cons p rest ih => exact ih _ (passStep_preserves acc p k v h)

theorem propagatePass_preserves (ps : List CurrencyPair) (t : RateTable)
    (k : String) (v : ℚ) (h : tfind t k = some v) :
    tfind (propagatePass ps t).1 k = some v :=
  foldl_passStep_preserves ps (t, false) k v h

theorem propagate_preserves (ps : List CurrencyPair) (fuel : Nat) (t : RateTable)
    (k : String) (v : ℚ) (h : tfind t k = some v) :
    tfind (propagate ps fuel t) k = some v := by
  induction fuel generalizing t with
  | zero => exact h
  | succ n ih =>
    unfold propagate
    by_cases hr : (propagatePass ps t).2
    · simp only [hr, if_true]
      exact ih _ (propagatePass_preserves ps t k v h)
    · simp only [hr, if_false]
      exact propagatePass_preserves ps t k v h

/-- C7. The Base Rate Table always maps `"USD"` to exactly `1.0`: the
seeding phase ends with the unconditional `baseRates["USD"] = 1.0`
(overwriting any seed a USD-mentioning quote such as `"USD/USD"` put
there), and the propagation loop only ever fills missing keys, never
overwriting an existing entry. -/
theorem usd_always_maps_to_one (ps : List CurrencyPair) :
    tfind (calculateBaseRates ps) "USD" = some 1 := by
  unfold calculateBaseRates
  exact propagate_preserves ps (ratesFuel ps) (seedRates ps) "USD" 1
    (tfind_tset_self (ps.foldl seedStep []) "USD" 1)

/-! ### The seeding phase of `calculateBaseRates` -/

/-- `p` writes a seed for currency `c` in the first loop of
`calculateBaseRates`: either `p` is a `USD/c` quote, or (the `else if`
branch) `p` is a `c/USD` quote whose base is not itself `"USD"`. -/
def seedsCurrency (p : CurrencyPair) (c : String) : Prop :=
  (p.baseCurrency = "USD" ∧ p.quoteCurrency = c) ∨
  (p.baseCurrency ≠ "USD" ∧ p.quoteCurrency = "USD" ∧ p.baseCurrency = c)

theorem seedStep_find_of_not_seeds (t : RateTable) (p : CurrencyPair) (c : String)
    (h : ¬ seedsCurrency p c) : tfind (seedStep t p) c = tfind t c := by
  unfold seedsCurrency at h
  unfold seedStep
  split
  · next hb =>
      have hq : p.quoteCurrency ≠ c := fun hc => h (Or.inl ⟨hb, hc⟩)
      exact tfind_tset_ne _ _ _ _ hq
  · next hb =>
      split
      · next hq =>
          have hbc : p.baseCurrency ≠ c := fun hc => h (Or.inr ⟨hb, hq, hc⟩)
          exact tfind_tset_ne _ _ _ _ hbc
      · rfl

theorem foldl_seedStep_not_seeds (l : List CurrencyPair) (t : RateTable) (c : String)
    (h : ∀ q ∈ l, ¬ seedsCurrency q c) :
    tfind (l.foldl seedStep t) c = tfind t c := by
  induction l generalizing t with
  | nil => rfl
  | cons p rest ih =>
    rw [List.foldl_cons, ih _ (fun q hq => h q (List.mem_cons_of_mem _ hq)),
      seedStep_find_of_not_seeds _ _ _ (h p (List.mem_cons_self _ _))]

/-- C3 counterexample.  The quote `"USD/USD"` at price 2 has base
currency `"USD"`, yet the finished table maps its quote currency
(`"USD"`) to `1.0`, not to the quote's price: the unconditional
`baseRates["USD"] = 1.0` overwrites the seed, so the claim's ∀-quote
statement fails. -/
theorem usd_usd_seed_overridden :
    (mkPair "USD/USD" 2).baseCurrency = "USD" ∧
    (mkPair "USD/USD" 2).price = 2 ∧
    tfind (calculateBaseRates [mkPair "USD/USD" 2]) "USD" = some 1 ∧
    tfind (calculateBaseRates [mkPair "USD/USD" 2]) (mkPair "USD/USD" 2).quoteCurrency ≠
      some (mkPair "USD/USD" 2).price := by
  refine ⟨rfl, rfl, rfl, ?_⟩
  intro hcontra
  rw [show tfind (calculateBaseRates [mkPair "USD/USD" 2]) (mkPair "USD/USD" 2).quoteCurrency
        = some 1 from rfl,
      show (mkPair "USD/USD" 2).price = 2 from rfl] at hcontra
  simp only [Option.some.injEq] at hcontra
  norm_num at hcontra

/-- C3 amended: the seeding equations hold for every quote that is the
LAST seed of its currency and does not seed `"USD"` itself — for a
quote `p` with base `"USD"` and quote currency `c ≠ "USD"` such that no
later quote seeds `c`, the table maps `c` to `p`'s price; symmetrically,
for `p` with quote currency `"USD"` and base `c ≠ "USD"` with no later
seed of `c`, the table maps `c` to the reciprocal of `p`'s price.
(Later seeds overwrite earlier ones, and the canonical USD entry
overwrites any `"USD"` seed; propagation never overwrites a seed.) -/
theorem usd_seed_gives_table_entry (l₁ l₂ : List CurrencyPair) (p : CurrencyPair) :
    (p.baseCurrency = "USD" → p.quoteCurrency ≠ "USD" →
      (∀ q ∈ l₂, ¬ seedsCurrency q p.quoteCurrency) →
      tfind (calculateBaseRates (l₁ ++ p :: l₂)) p.quoteCurrency = some p.price) ∧
    (p.baseCurrency ≠ "USD" → p.quoteCurrency = "USD" →
      (∀ q ∈ l₂, ¬ seedsCurrency q p.baseCurrency) →
      tfind (calculateBaseRates (l₁ ++ p :: l₂)) p.baseCurrency = some (1 / p.price)) := by
  constructor
  · intro hb hq hl
    unfold calculateBaseRates seedRates
    apply propagate_preserves
    rw [tfind_tset_ne _ _ _ _ (Ne.symm hq), List.foldl_append, List.foldl_cons,
      foldl_seedStep_not_seeds _ _ _ hl]
    unfold seedStep
    rw [if_pos hb]
    exact tfind_tset_self _ _ _
  · intro hb hq hl
    unfold calculateBaseRates seedRates
    apply propagate_preserves
    rw [tfind_tset_ne _ _ _ _ (Ne.symm hb), List.foldl_append, List.foldl_cons,
      foldl_seedStep_not_seeds _ _ _ hl]
    unfold seedStep
    rw [if_neg ?_, if_pos hq]
    · exact tfind_tset_self _ _ _
    · exact hb

/-- Witness for `usd_seed_gives_table_entry`: in
`[EUR/USD 4, USD/JPY 150]` the `EUR/USD` quote is the last seed of
`EUR`, so the table maps `EUR` to `1/4`. -/
theorem usd_seed_gives_table_entry_witness :
    tfind (calculateBaseRates ([] ++ mkPair "EUR/USD" 4 :: [mkPair "USD/JPY" 150]))
      (mkPair "EUR/USD" 4).baseCurrency = some (1 / (mkPair "EUR/USD" 4).price) :=
  (usd_seed_gives_table_entry [] [mkPair "USD/JPY" 150] (mkPair "EUR/USD" 4)).2
    (by decide) (by decide)
    (by intro q hq; simp at hq; subst hq; unfold seedsCurrency; decide)

/-! ### Termination of the propagation loop -/

/-- The key set of the base-rate map. -/
def tkeys (t : RateTable) : List String := t.map Prod.fst

theorem tset_length_of_find_none (t : RateTable) (k : String) (v : ℚ)
    (h : tfind t k = none) : (tset t k v).length = t.length + 1 := by
  induction t with
  | nil => rfl
  | cons kv rest ih =>
    obtain ⟨k₀, v₀⟩ := kv
    by_cases h₀ : k₀ = k
    · rw [tfind, if_pos h₀] at h
      cases h
    · rw [tfind, if_neg h₀] at h
      simp [tset, h₀, ih h]

theorem passStep_eq_or (acc : RateTable × Bool) (p : CurrencyPair) :
    passStep acc p = acc ∨
      ((passStep acc p).1.length = acc.1.length + 1 ∧ (passStep acc p).2 = true) := by
  unfold passStep
  split
  · next h₁ =>
      right
      rw [Bool.and_eq_true] at h₁
      have hnone : tfind acc.1 p.quoteCurrency = none :=
        Option.isNone_iff_eq_none.mp h₁.2
      exact ⟨tset_length_of_find_none _ _ _ hnone, rfl⟩
  · split
    · next h₂ =>
        right
        rw [Bool.and_eq_true] at h₂
        have hnone : tfind acc.1 p.baseCurrency = none :=
          Option.isNone_iff_eq_none.mp h₂.2
        exact ⟨tset_length_of_find_none _ _ _ hnone, rfl⟩
    · left; rfl

theorem foldl_passStep_flag_mono (l : List CurrencyPair) (acc : RateTable × Bool)
    (h : acc.2 = true) : (l.foldl passStep acc).2 = true := by
  induction l generalizing acc with
  | nil => exact h
  | cons p rest ih =>
    rw [List.foldl_cons]
    apply ih
    rcases passStep_eq_or acc p with he | ⟨_, hf⟩
    · rw [he]; exact h
    · exact hf

theorem foldl_passStep_length_mono (l : List CurrencyPair) (acc : RateTable × Bool) :
    acc.1.length ≤ (l.foldl passStep acc).1.length := by
  induction l generalizing acc with
  | nil => exact le_refl _
  | cons p rest ih =>
    rw [List.foldl_cons]
    refine le_trans ?_ (ih (passStep acc p))
    rcases passStep_eq_or acc p with he | ⟨hl, _⟩
    · rw [he]
    · omega

theorem foldl_passStep_growth (l : List CurrencyPair) (acc : RateTable × Bool)
    (h : (l.foldl passStep acc).2 = true) :
    acc.2 = true ∨ acc.1.length < (l.foldl passStep acc).1.length := by
  induction l generalizing acc with
  | nil => exact Or.inl h
  | cons p rest ih =>
    rw [List.foldl_cons] at h ⊢
    rcases passStep_eq_or acc p with he | ⟨hl, _⟩
    · rw [he] at h ⊢
      exact ih acc h
    · right
      calc acc.1.length < (passStep acc p).1.length := by omega
        _ ≤ _ := foldl_passStep_length_mono rest _

/-- A pass that reports a change has strictly enlarged the table. -/
theorem propagatePass_growth (ps : List CurrencyPair) (t : RateTable)
    (h : (propagatePass ps t).2 = true) : t.length < (propagatePass ps t).1.length := by
  rcases foldl_passStep_growth ps (t, false) h with hf | hl
  · exact Bool.noConfusion hf
  · exact hl

theorem foldl_passStep_flag_false (l : List CurrencyPair) (acc : RateTable × Bool)
    (h : (l.foldl passStep acc).2 = false) : l.foldl passStep acc = acc := by
  induction l generalizing acc with
  | nil => rfl
  | cons p rest ih =>
    rw [List.foldl_cons] at h ⊢
    rcases passStep_eq_or acc p with he | ⟨_, hf⟩
    · rw [he] at h ⊢
      exact ih acc h
    · exfalso
      have hmono := foldl_passStep_flag_mono rest _ hf
      rw [h] at hmono
      exact Bool.noConfusion hmono

/-- A pass that reports no change has left the table untouched. -/
theorem propagatePass_false (ps : List CurrencyPair) (t : RateTable)
    (h : (propagatePass ps t).2 = false) : (propagatePass ps t).1 = t := by
  unfold propagatePass at h ⊢
  rw [foldl_passStep_flag_false ps (t, false) h]

theorem mem_tkeys_tset (t : RateTable) (k : String) (v : ℚ) (c : String)
    (h : c ∈ tkeys (tset t k v)) : c ∈ tkeys t ∨ c = k := by
  induction t with
  | nil =>
    right
    simpa [tset, tkeys] using h
  | cons kv rest ih =>
    obtain ⟨k₀, v₀⟩ := kv
    by_cases h₀ : k₀ = k
    · left
      simpa [tset, h₀, tkeys] using h
    · simp only [tset, if_neg h₀, tkeys, List.map_cons, List.mem_cons] at h ⊢
      rcases h with h | h
      · exact Or.inl (Or.inl h)
      · rcases ih h with h' | h'
        · exact Or.inl (Or.inr h')
        · exact Or.inr h'

theorem nodup_tkeys_tset (t : RateTable) (k : String) (v : ℚ)
    (h : (tkeys t).Nodup) : (tkeys (tset t k v)).Nodup := by
  induction t with
  | nil => simp [tset, tkeys]
  | cons kv rest ih =>
    obtain ⟨k₀, v₀⟩ := kv
    simp only [tkeys, List.map_cons, List.nodup_cons] at h
    by_cases h₀ : k₀ = k
    · simp only [tset, if_pos h₀, tkeys, List.map_cons, List.nodup_cons]
      exact h
    · simp only [tset, if_neg h₀, tkeys, List.map_cons, List.nodup_cons]
      refine ⟨?_, ih h.2⟩
      intro hmem
      rcases mem_tkeys_tset rest k v k₀ hmem with hm | hm
      · exact h.1 hm
      · exact h₀ hm

/-- Every key of the table is either the canonical `"USD"` entry or a
currency mentioned by some quote. -/
def goodKeys (ps : List CurrencyPair) (t : RateTable) : Prop :=
  ∀ c ∈ tkeys t, c = "USD" ∨ c ∈ collectCurrencies ps

theorem mem_collect_of_mem (ps : List CurrencyPair) (p : CurrencyPair) (h : p ∈ ps) :
    p.baseCurrency ∈ collectCurrencies ps ∧ p.quoteCurrency ∈ collectCurrencies ps := by
  induction ps with
  | nil => cases h
  | cons q rest ih =>
    rcases List.mem_cons.mp h with rfl | h'
    · exact ⟨List.mem_cons_self _ _, List.mem_cons_of_mem _ (List.mem_cons_self _ _)⟩
    · have := ih h'
      exact ⟨List.mem_cons_of_mem _ (List.mem_cons_of_mem _ this.1),
             List.mem_cons_of_mem _ (List.mem_cons_of_mem _ this.2)⟩

theorem passStep_nodup (acc : RateTable × Bool) (p : CurrencyPair)
    (h : (tkeys acc.1).Nodup) : (tkeys (passStep acc p).1).Nodup := by
  unfold passStep
  split
  · exact nodup_tkeys_tset _ _ _ h
  · split
    · exact nodup_tkeys_tset _ _ _ h
    · exact h

theorem passStep_goodKeys (ps : List CurrencyPair) (acc : RateTable × Bool)
    (p : CurrencyPair) (hp : p ∈ ps) (h : goodKeys ps acc.1) :
    goodKeys ps (passStep acc p).1 := by
  unfold passStep
  split
  · intro c hc
    rcases mem_tkeys_tset _ _ _ _ hc with hm | rfl
    · exact h c hm
    · exact Or.inr (mem_collect_of_mem ps p hp).2
  · split
    · intro c hc
      rcases mem_tkeys_tset _ _ _ _ hc with hm | rfl
      · exact h c hm
      · exact Or.inr (mem_collect_of_mem ps p hp).1
    · exact h

theorem foldl_passStep_invariant (ps l : List CurrencyPair) (acc : RateTable × Bool)
    (hl : ∀ q ∈ l, q ∈ ps) (hn : (tkeys acc.1).Nodup) (hg : goodKeys ps acc.1) :
    (tkeys (l.foldl passStep acc).1).Nodup ∧ goodKeys ps (l.foldl passStep acc).1 := by
  induction l generalizing acc with
  | nil => exact ⟨hn, hg⟩
  | cons p rest ih =>
    rw [List.foldl_cons]
    exact ih _ (fun q hq => hl q (List.mem_cons_of_mem _ hq))
      (passStep_nodup acc p hn)
      (passStep_goodKeys ps acc p (hl p (List.mem_cons_self _ _)) hg)

theorem propagate_invariant (ps : List CurrencyPair) (fuel : Nat) (t : RateTable)
    (hn : (tkeys t).Nodup) (hg : goodKeys ps t) :
    (tkeys (propagate ps fuel t)).Nodup ∧ goodKeys ps (propagate ps fuel t) := by
  induction fuel generalizing t with
  | zero => exact ⟨hn, hg⟩
  | succ n ih =>
    unfold propagate
    have hinv := foldl_passStep_invariant ps ps (t, false) (fun _ hq => hq) hn hg
    by_cases hf : (propagatePass ps t).2
    · simp only [hf, if_true]
      exact ih _ hinv.1 hinv.2
    · simp only [hf, if_false]
      exact hinv

theorem table_length_bound (ps : List CurrencyPair) (t : RateTable)
    (hn : (tkeys t).Nodup) (hg : goodKeys ps t) :
    t.length ≤ ((collectCurrencies ps).dedup).length + 1 := by
  have hsub : tkeys t ⊆ "USD" :: (collectCurrencies ps).dedup := by
    intro c hc
    rcases hg c hc with rfl | hm
    · exact List.mem_cons_self _ _
    · exact List.mem_cons_of_mem _ (List.mem_dedup.mpr hm)
  have hle := (List.subperm_of_subset hn hsub).length_le
  simpa [tkeys] using hle

theorem seedStep_nodup (t : RateTable) (p : CurrencyPair)
    (h : (tkeys t).Nodup) : (tkeys (seedStep t p)).Nodup := by
  unfold seedStep
  split
  · exact nodup_tkeys_tset _ _ _ h
  · split
    · exact nodup_tkeys_tset _ _ _ h
    · exact h

theorem seedStep_goodKeys (ps : List CurrencyPair) (t : RateTable)
    (p : CurrencyPair) (hp : p ∈ ps) (h : goodKeys ps t) :
    goodKeys ps (seedStep t p) := by
  unfold seedStep
  split
  · intro c hc
    rcases mem_tkeys_tset _ _ _ _ hc with hm | rfl
    · exact h c hm
    · exact Or.inr (mem_collect_of_mem ps p hp).2
  · split
    · intro c hc
      rcases mem_tkeys_tset _ _ _ _ hc with hm | rfl
      · exact h c hm
      · exact Or.inr (mem_collect_of_mem ps p hp).1
    · exact h

theorem seedRates_invariant (ps : List CurrencyPair) :
    (tkeys (seedRates ps)).Nodup ∧ goodKeys ps (seedRates ps) := by
  have base : ∀ l : List CurrencyPair, (∀ q ∈ l, q ∈ ps) → ∀ t : RateTable,
      (tkeys t).Nodup → goodKeys ps t →
      (tkeys (l.foldl seedStep t)).Nodup ∧ goodKeys ps (l.foldl seedStep t) := by
    intro l
    induction l with
    | nil => exact fun _ t hn hg => ⟨hn, hg⟩
    | cons p rest ih =>
      intro hl t hn hg
      rw [List.foldl_cons]
      exact ih (fun q hq => hl q (List.mem_cons_of_mem _ hq)) _
        (seedStep_nodup t p hn)
        (seedStep_goodKeys ps t p (hl p (List.mem_cons_self _ _)) hg)
  have hfold := base ps (fun _ hq => hq) [] (by simp [tkeys]) (by intro c hc; simp [tkeys] at hc)
  unfold seedRates
  refine ⟨nodup_tkeys_tset _ _ _ hfold.1, ?_⟩
  intro c hc
  rcases mem_tkeys_tset _ _ _ _ hc with hm | rfl
  · exact hfold.2 c hm
  · exact Or.inl rfl

theorem propagate_reaches_fix (ps : List CurrencyPair) :
    ∀ (fuel : Nat) (t : RateTable), (tkeys t).Nodup → goodKeys ps t →
      ((collectCurrencies ps).dedup).length + 1 < fuel + t.length →
      (propagatePass ps (propagate ps fuel t)).2 = false := by
  intro fuel
  induction fuel with
  | zero =>
    intro t hn hg hb
    exact absurd (table_length_bound ps t hn hg) (by omega)
  | succ n ih =>
    intro t hn hg hb
    unfold propagate
    cases hf : (propagatePass ps t).2 with
    | true =>
      simp only [hf, if_true]
      have hinv := foldl_passStep_invariant ps ps (t, false) (fun _ hq => hq) hn hg
      have hgrow := propagatePass_growth ps t hf
      exact ih (propagatePass ps t).1 hinv.1 hinv.2 (by omega)
    | false =>
      simp only [hf, if_false]
      rw [propagatePass_false ps t hf]
      exact hf

theorem collectCurrencies_length (ps : List CurrencyPair) :
    (collectCurrencies ps).length = 2 * ps.length := by
  induction ps with
  | nil => rfl
  | cons p rest ih =>
    simp only [collectCurrencies, List.length_cons, ih]
    omega

/-- C6 counterexample.  On the empty quote collection the finished table
still holds the unconditional `USD ↦ 1.0` entry: one key, yet zero
distinct currencies are mentioned by the quotes, so "the table's key set
is bounded by the number of distinct currencies mentioned in the quotes"
fails as stated (the bound needs the extra `+1` for USD). -/
theorem empty_collection_exceeds_currency_bound :
    (calculateBaseRates []).length = 1 ∧
    ((collectCurrencies ([] : List CurrencyPair)).dedup).length = 0 ∧
    ¬ ((calculateBaseRates []).length ≤
        ((collectCurrencies ([] : List CurrencyPair)).dedup).length) := by
  refine ⟨rfl, rfl, ?_⟩
  decide

/-- C6 amended: the rate-propagation loop terminates on every finite
quote collection — the fuelled model reaches the pass that reports no
change (so the C++ `while` exits), each full pass that reports a change
has added at least one entry, no pass removes or overwrites an entry,
and the table's key set is bounded by the number of distinct currencies
mentioned in the quotes PLUS ONE (the unconditional USD entry). -/
theorem propagation_loop_terminates (ps : List CurrencyPair) :
    (propagatePass ps (calculateBaseRates ps)).2 = false ∧
    (∀ t : RateTable, (propagatePass ps t).2 = true →
        t.length < (propagatePass ps t).1.length) ∧
    (∀ (t : RateTable) (k : String) (v : ℚ), tfind t k = some v →
        tfind (propagatePass ps t).1 k = some v) ∧
    (calculateBaseRates ps).length ≤ ((collectCurrencies ps).dedup).length + 1 := by
  have hseed := seedRates_invariant ps
  have hdedup : ((collectCurrencies ps).dedup).length ≤ 2 * ps.length := by
    have := (List.dedup_sublist (collectCurrencies ps)).length_le
    rw [collectCurrencies_length ps] at this
    exact this
  refine ⟨?_, propagatePass_growth ps, propagatePass_preserves ps, ?_⟩
  · unfold calculateBaseRates
    exact propagate_reaches_fix ps (ratesFuel ps) (seedRates ps) hseed.1 hseed.2
      (by unfold ratesFuel; omega)
  · have hinv := propagate_invariant ps (ratesFuel ps) (seedRates ps) hseed.1 hseed.2
    exact table_length_bound ps _ hinv.1 hinv.2

/-- Demo collection for the C6 witness: the second quote's quote
currency JPY is reachable only through propagation, so the first pass
reports a change. -/
def c6demo : List CurrencyPair := [mkPair "USD/EUR" 2, mkPair "EUR/JPY" 3]

/-- Witness for `propagation_loop_terminates`: on `c6demo` the updating
pass grows the table from 2 entries to 3 and keeps the USD entry. -/
theorem propagation_loop_terminates_witness :
    (seedRates c6demo).length < (propagatePass c6demo (seedRates c6demo)).1.length ∧
    tfind (propagatePass c6demo (seedRates c6demo)).1 "USD" = some 1 :=
  ⟨(propagation_loop_terminates c6demo).2.1 (seedRates c6demo) rfl,
   (propagation_loop_terminates c6demo).2.2.1 (seedRates c6demo) "USD" 1 rfl⟩

/-! ### The cross-rate resolver -/

/-- Quote collection for the C1 counterexample: EUR and GBP both carry
USD-chain table entries AND an explicit `EUR/GBP` quote exists. -/
def c1pairs : List CurrencyPair :=
  [mkPair "USD/EUR" 2, mkPair "USD/GBP" 4, mkPair "EUR/GBP" 100]

/-- C1 counterexample.  With the quote `EUR/GBP = 100` present and both
currencies in the Base Rate Table, `calculateCrossCurrencyRate` returns
the USD-chain value `table[GBP]/table[EUR] = 4/2 = 2`, NOT the explicit
quote's price `100`: its table branch comes first, so it does not give
the explicit quote precedence as the claim states. -/
theorem cross_rate_ignores_explicit_quote :
    findPairPrice c1pairs ("EUR" ++ "/" ++ "GBP") = some 100 ∧
    calculateCrossCurrencyRate c1pairs (calculateBaseRates c1pairs) "EUR" "GBP" = 2 ∧
    (2 : ℚ) ≠ 100 := by
  refine ⟨rfl, ?_, by norm_num⟩
  rw [show calculateCrossCurrencyRate c1pairs (calculateBaseRates c1pairs) "EUR" "GBP"
      = (4 : ℚ) / 2 from rfl]
  norm_num

/-- C1 amended: `getExchangeRate` does prefer an explicit quote — direct
pair first, then the inverse pair's reciprocal, and only then the
USD-chain — but `calculateCrossCurrencyRate` consults the Base Rate
Table FIRST: whenever both currencies have entries it returns
`table[to]/table[from]`, even when an explicit quote exists, and falls
back to quote scanning only when a table entry is missing. -/
theorem explicit_quote_priority (ps : List CurrencyPair) (t : RateTable)
    (fromCurrency toCurrency : String) :
    (∀ p : ℚ, findPairPrice ps (fromCurrency ++ "/" ++ toCurrency) = some p →
        getExchangeRate ps t fromCurrency toCurrency = p) ∧
    (∀ p : ℚ, findPairPrice ps (fromCurrency ++ "/" ++ toCurrency) = none →
        findPairPrice ps (toCurrency ++ "/" ++ fromCurrency) = some p →
        getExchangeRate ps t fromCurrency toCurrency = 1 / p) ∧
    (∀ vf vt : ℚ, tfind t fromCurrency = some vf → tfind t toCurrency = some vt →
        calculateCrossCurrencyRate ps t fromCurrency toCurrency = vt / vf) := by
  refine ⟨?_, ?_, ?_⟩
  · intro p hp
    unfold getExchangeRate
    rw [hp]
  · intro p hd hi
    unfold getExchangeRate
    rw [hd, hi]
  · intro vf vt hf ht
    unfold calculateCrossCurrencyRate
    rw [hf, ht]
    simp

/-- Witness for `explicit_quote_priority`: on `c1pairs`,
`getExchangeRate` does return the explicit quote's price 100 (while its
helper, per the counterexample, returns 2). -/
theorem explicit_quote_priority_witness :
    getExchangeRate c1pairs (calculateBaseRates c1pairs) "EUR" "GBP" = 100 :=
  (explicit_quote_priority c1pairs (calculateBaseRates c1pairs) "EUR" "GBP").1 100 rfl

/-- Quote collection for the C10 counterexample: a zero-priced quote
seeds a zero Base-Rate entry for AAA. -/
def c10pairs : List CurrencyPair := [mkPair "USD/AAA" 0]

/-- C10 counterexample.  `AAA` HAS a Base-Rate entry (value 0, seeded by
the zero-priced quote `USD/AAA`), yet the self-rate is not `1.0`: the
code computes `table[AAA]/table[AAA] = 0.0/0.0`, which is NaN in C++ and
`0` in this rational model — in either semantics it differs from `1.0`,
so "returns exactly 1.0 if X has an entry" fails. -/
theorem self_rate_zero_entry_not_one :
    tfind (calculateBaseRates c10pairs) "AAA" = some 0 ∧
    getExchangeRate c10pairs (calculateBaseRates c10pairs) "AAA" "AAA" = 0 ∧
    (0 : ℚ) ≠ 1 := by
  refine ⟨rfl, ?_, by norm_num⟩
  rw [show getExchangeRate c10pairs (calculateBaseRates c10pairs) "AAA" "AAA"
      = (0 : ℚ) / 0 from rfl]
  norm_num

theorem crossLoop_self_none (ps : List CurrencyPair) (code : String)
    (h : findPairPrice ps code = none) : crossLoop ps code code = 0 := by
  induction ps with
  | nil => rfl
  | cons p rest ih =>
    unfold findPairPrice at h
    unfold crossLoop
    by_cases hc : p.pairCode = code
    · rw [if_pos hc] at h
      cases h
    · rw [if_neg hc] at h
      rw [if_neg hc, if_neg hc]
      exact ih h

/-- C10 amended: when the collection has no `X/X` quote, self-conversion
returns exactly `1.0` if `X` has a NONZERO Base-Rate entry (`v/v = 1`;
IEEE doubles also give exactly 1.0 for finite nonzero `v`), and the
`0.0` "no conversion path" sentinel if `X` has no entry at all.  (A zero
entry — possible only via a zero-priced quote — yields NaN in C++, see
the counterexample.) -/
theorem self_conversion_rate (ps : List CurrencyPair) (t : RateTable) (x : String)
    (hq : findPairPrice ps (x ++ "/" ++ x) = none) :
    (∀ v : ℚ, v ≠ 0 → tfind t x = some v →
        getExchangeRate ps t x x = 1 ∧ calculateCrossCurrencyRate ps t x x = 1) ∧
    (tfind t x = none →
        getExchangeRate ps t x x = 0 ∧ calculateCrossCurrencyRate ps t x x = 0) := by
  constructor
  · intro v hv hfind
    have hcross : calculateCrossCurrencyRate ps t x x = 1 := by
      unfold calculateCrossCurrencyRate
      rw [hfind]
      simp [div_self hv]
    refine ⟨?_, hcross⟩
    unfold getExchangeRate
    rw [hq]
    exact hcross
  · intro hfind
    have hcross : calculateCrossCurrencyRate ps t x x = 0 := by
      unfold calculateCrossCurrencyRate
      rw [hfind]
      simp only [Option.isSome_none, Bool.false_and, Bool.and_false]
      rw [if_neg (by simp)]
      exact crossLoop_self_none ps _ hq
    refine ⟨?_, hcross⟩
    unfold getExchangeRate
    rw [hq]
    exact hcross

/-- Witness for `self_conversion_rate`: a nonzero entry gives
self-rate 1; a missing entry gives the 0.0 sentinel. -/
theorem self_conversion_rate_witness :
    getExchangeRate [] [("EUR", (2 : ℚ))] "EUR" "EUR" = 1 ∧
    getExchangeRate [] [] "JPY" "JPY" = 0 :=
  ⟨((self_conversion_rate [] [("EUR", 2)] "EUR" rfl).1 2 (by norm_num) rfl).1,
   ((self_conversion_rate [] [] "JPY" rfl).2 rfl).1⟩

/-! ### The triangular-arbitrage scan -/

/-- C2.  The arbitrage scan emits `(path A→B→C→A, (product − 1)·100)`
for every ordered triple of distinct currencies from the available set
whose three legs (via `calculateCrossCurrencyRate`) are all strictly
positive with product exceeding `1 + 0.01`; and conversely everything it
emits arises from such a triple — in particular no triple with a leg
`≤ 0` is ever reported. -/
theorem arbitrage_scan_characterization (ps : List CurrencyPair) (t : RateTable) :
    (∀ a b c : String, a ∈ availableCurrencies ps → b ∈ availableCurrencies ps →
      c ∈ availableCurrencies ps → a ≠ b → a ≠ c → b ≠ c →
      0 < calculateCrossCurrencyRate ps t a b →
      0 < calculateCrossCurrencyRate ps t b c →
      0 < calculateCrossCurrencyRate ps t c a →
      1 + 1 / 100 < calculateCrossCurrencyRate ps t a b *
        calculateCrossCurrencyRate ps t b c * calculateCrossCurrencyRate ps t c a →
      (pathString a b c,
        (calculateCrossCurrencyRate ps t a b * calculateCrossCurrencyRate ps t b c *
          calculateCrossCurrencyRate ps t c a - 1) * 100) ∈
        findArbitrageOpportunities ps t) ∧
    (∀ (s : String) (q : ℚ), (s, q) ∈ findArbitrageOpportunities ps t →
      ∃ a b c : String, a ∈ availableCurrencies ps ∧ b ∈ availableCurrencies ps ∧
        c ∈ availableCurrencies ps ∧ a ≠ b ∧ a ≠ c ∧ b ≠ c ∧
        0 < calculateCrossCurrencyRate ps t a b ∧
        0 < calculateCrossCurrencyRate ps t b c ∧
        0 < calculateCrossCurrencyRate ps t c a ∧
        1 + 1 / 100 < calculateCrossCurrencyRate ps t a b *
          calculateCrossCurrencyRate ps t b c * calculateCrossCurrencyRate ps t c a ∧
        s = pathString a b c ∧
        q = (calculateCrossCurrencyRate ps t a b * calculateCrossCurrencyRate ps t b c *
          calculateCrossCurrencyRate ps t c a - 1) * 100) := by
  constructor
  · intro a b c ha hb hc hab hac hbc hAB hBC hCA hprod
    unfold findArbitrageOpportunities
    refine List.mem_flatMap.mpr ⟨a, ha, List.mem_flatMap.mpr ⟨b, hb, ?_⟩⟩
    rw [if_neg hab]
    refine List.mem_filterMap.mpr ⟨c, hc, ?_⟩
    unfold tripleCheck
    rw [if_neg (by push_neg; exact ⟨hac, hbc⟩),
      if_neg (by push_neg; exact ⟨hAB, hBC, hCA⟩),
      if_pos (by linarith)]
  · intro s q hmem
    unfold findArbitrageOpportunities at hmem
    obtain ⟨a, ha, hmem⟩ := List.mem_flatMap.mp hmem
    obtain ⟨b, hb, hmem⟩ := List.mem_flatMap.mp hmem
    by_cases hab : a = b
    · rw [if_pos hab] at hmem
      cases hmem
    rw [if_neg hab] at hmem
    obtain ⟨c, hc, htc⟩ := List.mem_filterMap.mp hmem
    unfold tripleCheck at htc
    by_cases h1 : a = c ∨ b = c
    · rw [if_pos h1] at htc
      cases htc
    rw [if_neg h1] at htc
    by_cases h2 : calculateCrossCurrencyRate ps t a b ≤ 0 ∨
        calculateCrossCurrencyRate ps t b c ≤ 0 ∨ calculateCrossCurrencyRate ps t c a ≤ 0
    · rw [if_pos h2] at htc
      cases htc
    rw [if_neg h2] at htc
    by_cases h3 : 1 < (calculateCrossCurrencyRate ps t a b * calculateCrossCurrencyRate ps t b c *
        calculateCrossCurrencyRate ps t c a - 1) * 100
    · rw [if_pos h3] at htc
      simp only [Option.some.injEq, Prod.mk.injEq] at htc
      push_neg at h1 h2
      exact ⟨a, b, c, ha, hb, hc, hab, h1.1, h1.2, h2.1, h2.2.1, h2.2.2,
        by linarith, htc.1.symm, htc.2.symm⟩
    · rw [if_neg h3] at htc
      cases htc

/-- Demo collection for the C2 witness (the spec's own example):
`A/B = 2`, `B/C = 3`, `C/A = 1/5`, product `6/5`, profit 20 %. -/
def arbDemo : List CurrencyPair :=
  [mkPair "A/B" 2, mkPair "B/C" 3, mkPair "C/A" (1 / 5)]

/-- Witness for `arbitrage_scan_characterization`: the 20 %-profit
triple `A→B→C→A` of `arbDemo` is emitted. -/
theorem arbitrage_scan_characterization_witness :
    (pathString "A" "B" "C",
      (calculateCrossCurrencyRate arbDemo (calculateBaseRates arbDemo) "A" "B" *
        calculateCrossCurrencyRate arbDemo (calculateBaseRates arbDemo) "B" "C" *
        calculateCrossCurrencyRate arbDemo (calculateBaseRates arbDemo) "C" "A" - 1) * 100) ∈
      findArbitrageOpportunities arbDemo (calculateBaseRates arbDemo) :=
  (arbitrage_scan_characterization arbDemo (calculateBaseRates arbDemo)).1
    "A" "B" "C" (by decide) (by decide) (by decide) (by decide) (by decide) (by decide)
    (by rw [show calculateCrossCurrencyRate arbDemo (calculateBaseRates arbDemo) "A" "B"
          = (2 : ℚ) from rfl]; norm_num)
    (by rw [show calculateCrossCurrencyRate arbDemo (calculateBaseRates arbDemo) "B" "C"
          = (3 : ℚ) from rfl]; norm_num)
    (by rw [show calculateCrossCurrencyRate arbDemo (calculateBaseRates arbDemo) "C" "A"
          = (1 / 5 : ℚ) from rfl]; norm_num)
    (by rw [show calculateCrossCurrencyRate arbDemo (calculateBaseRates arbDemo) "A" "B"
          = (2 : ℚ) from rfl,
        show calculateCrossCurrencyRate arbDemo (calculateBaseRates arbDemo) "B" "C"
          = (3 : ℚ) from rfl,
        show calculateCrossCurrencyRate arbDemo (calculateBaseRates arbDemo) "C" "A"
          = (1 / 5 : ℚ) from rfl]; norm_num)

/-! ### Performance ranker -/

/-- C8.  The claim "`n ≤ 0` yields an empty result … no error" fails for
negative `n`: `resultCount = min(-1, size) = -1` and the C++ range
constructor `vector(begin(), begin() + (-1))` is an invalid iterator
range (undefined behaviour, modelled as `none`), not an empty vector. -/
theorem negative_count_invalid_range :
    getTopPerformers "Percent Change" (-1) [mkPair "USD/EUR" 2] = none ∧
    getWorstPerformers "Percent Change" (-1) [mkPair "USD/EUR" 2] = none :=
  ⟨rfl, rfl⟩

theorem countP_lt_length_of_mem {α : Type} (p : α → Bool) (l : List α) (x : α)
    (hx : x ∈ l) (hpx : p x = false) : l.countP p < l.length := by
  induction l with
  | nil => cases hx
  | cons y rest ih =>
    rw [List.countP_cons]
    simp only [List.length_cons]
    rcases List.mem_cons.mp hx with rfl | hx'
    · rw [hpx]
      have hle : rest.countP p ≤ rest.length := List.countP_le_length p
      simp only [Bool.false_eq_true, if_false]
      omega
    · have ih' := ih hx'
      by_cases hpy : p y = true
      · rw [if_pos hpy]
        omega
      · rw [if_neg hpy]
        omega

theorem countP_take_bound {α : Type} (p : α → Bool) (d : List α) (k : Nat) (x : α)
    (hx : x ∈ d.take k) (hpx : p x = false)
    (hdrop : ∀ y ∈ d.drop k, p y = false) :
    d.countP p < k := by
  conv_lhs => rw [← List.take_append_drop k d]
  rw [List.countP_append]
  have h1 : (d.take k).countP p < (d.take k).length :=
    countP_lt_length_of_mem p _ x hx hpx
  have h2 : (d.drop k).countP p = 0 := by
    rw [List.countP_eq_zero]
    intro y hy
    simp [hdrop y hy]
  have h3 : (d.take k).length ≤ k := by
    rw [List.length_take]
    omega
  omega

theorem countP_metric_partition (metric : String) (x : CurrencyPair)
    (l : List CurrencyPair) :
    l.countP (fun y => decide (getChangeByMetric x metric < getChangeByMetric y metric)) +
      l.countP (fun y => decide (getChangeByMetric y metric = getChangeByMetric x metric)) +
      l.countP (fun y => decide (getChangeByMetric y metric < getChangeByMetric x metric)) =
      l.length := by
  induction l with
  | nil => rfl
  | cons y rest ih =>
    simp only [List.countP_cons, List.length_cons]
    rcases lt_trichotomy (getChangeByMetric y metric) (getChangeByMetric x metric)
      with h | h | h
    · rw [if_neg (by simp only [decide_eq_true_eq]; exact lt_asymm h),
        if_neg (by simp only [decide_eq_true_eq]; exact h.ne),
        if_pos (by simp only [decide_eq_true_eq]; exact h)]
      omega
    · rw [if_neg (by simp only [decide_eq_true_eq]; rw [h]; exact lt_irrefl _),
        if_pos (by simp only [decide_eq_true_eq]; exact h),
        if_neg (by simp only [decide_eq_true_eq]; rw [h]; exact lt_irrefl _)]
      omega
    · rw [if_pos (by simp only [decide_eq_true_eq]; exact h),
        if_neg (by simp only [decide_eq_true_eq]; exact ne_of_gt h),
        if_neg (by simp only [decide_eq_true_eq]; exact lt_asymm h)]
      omega

theorem countP_eq_metric_le_one (metric : String) (c : ℚ) (l : List CurrencyPair)
    (hp : l.Pairwise (fun u v => getChangeByMetric u metric ≠ getChangeByMetric v metric)) :
    l.countP (fun y => decide (getChangeByMetric y metric = c)) ≤ 1 := by
  induction l with
  | nil => exact Nat.zero_le _
  | cons y rest ih =>
    rw [List.countP_cons]
    obtain ⟨hy, hrest⟩ := List.pairwise_cons.mp hp
    by_cases hyc : getChangeByMetric y metric = c
    · have hzero : rest.countP (fun v => decide (getChangeByMetric v metric = c)) = 0 := by
        rw [List.countP_eq_zero]
        intro v hv
        simp only [decide_eq_true_eq]
        exact fun hvc => hy v hv (hyc.trans hvc.symm)
      rw [hzero, if_pos (by simp only [decide_eq_true_eq]; exact hyc)]
    · rw [if_neg (by simp only [decide_eq_true_eq]; exact hyc)]
      have := ih hrest
      omega

theorem sortDesc_sorted (metric : String) (ps : List CurrencyPair) :
    (sortDesc metric ps).Pairwise
      (fun a b => getChangeByMetric b metric ≤ getChangeByMetric a metric) := by
  have h : (sortDesc metric ps).Pairwise
      (fun a b => decide (getChangeByMetric b metric ≤ getChangeByMetric a metric) = true) := by
    unfold sortDesc
    refine List.sorted_mergeSort ?_ ?_ ps
    · intro a b c h1 h2
      simp only [decide_eq_true_eq] at h1 h2 ⊢
      exact le_trans h2 h1
    · intro a b
      simp only [Bool.or_eq_true, decide_eq_true_eq]
      exact le_total _ _
  exact h.imp (fun hab => by simpa using hab)

theorem sortAsc_sorted (metric : String) (ps : List CurrencyPair) :
    (sortAsc metric ps).Pairwise
      (fun a b => getChangeByMetric a metric ≤ getChangeByMetric b metric) := by
  have h : (sortAsc metric ps).Pairwise
      (fun a b => decide (getChangeByMetric a metric ≤ getChangeByMetric b metric) = true) := by
    unfold sortAsc
    refine List.sorted_mergeSort ?_ ?_ ps
    · intro a b c h1 h2
      simp only [decide_eq_true_eq] at h1 h2 ⊢
      exact le_trans h1 h2
    · intro a b
      simp only [Bool.or_eq_true, decide_eq_true_eq]
      exact le_total _ _
  exact h.imp (fun hab => by simpa using hab)

theorem sortDesc_take_drop_le (metric : String) (ps : List CurrencyPair) (k : Nat)
    (x y : CurrencyPair) (hx : x ∈ (sortDesc metric ps).take k)
    (hy : y ∈ (sortDesc metric ps).drop k) :
    getChangeByMetric y metric ≤ getChangeByMetric x metric := by
  have hsplit : ((sortDesc metric ps).take k ++ (sortDesc metric ps).drop k).Pairwise
      (fun a b => getChangeByMetric b metric ≤ getChangeByMetric a metric) := by
    rw [List.take_append_drop]
    exact sortDesc_sorted metric ps
  exact (List.pairwise_append.mp hsplit).2.2 x hx y hy

theorem sortAsc_take_drop_ge (metric : String) (ps : List CurrencyPair) (k : Nat)
    (x y : CurrencyPair) (hx : x ∈ (sortAsc metric ps).take k)
    (hy : y ∈ (sortAsc metric ps).drop k) :
    getChangeByMetric x metric ≤ getChangeByMetric y metric := by
  have hsplit : ((sortAsc metric ps).take k ++ (sortAsc metric ps).drop k).Pairwise
      (fun a b => getChangeByMetric a metric ≤ getChangeByMetric b metric) := by
    rw [List.take_append_drop]
    exact sortAsc_sorted metric ps
  exact (List.pairwise_append.mp hsplit).2.2 x hx y hy

/-- C5 amended: top-`n` and worst-`n` on the same metric are disjoint
whenever `2n ≤ size` AND the metric values of the records are pairwise
distinct.  (With ties the sets can overlap — see the counterexample —
because both slices may pick the same tied record; any sorted
permutation satisfies this statement, so it does not rely on the
unspecified tie order of `std::sort`.) -/
theorem performers_disjoint (metric : String) (n : Int)
    (ps top worst : List CurrencyPair)
    (htop : getTopPerformers metric n ps = some top)
    (hworst : getWorstPerformers metric n ps = some worst)
    (hsize : 2 * n ≤ (ps.length : Int))
    (hdist : ps.Pairwise
      (fun u v => getChangeByMetric u metric ≠ getChangeByMetric v metric)) :
    ∀ x, x ∈ top → x ∈ worst → False := by
  intro x hxt hxw
  unfold getTopPerformers at htop
  unfold getWorstPerformers at hworst
  by_cases hrc : resultCount n ps.length < 0
  · rw [if_pos hrc] at htop
    cases htop
  rw [if_neg hrc] at htop
  rw [if_neg hrc] at hworst
  obtain rfl := Option.some.inj htop
  obtain rfl := Option.some.inj hworst
  set k := (resultCount n ps.length).toNat with hk
  have hk2 : 2 * k ≤ ps.length := by
    unfold resultCount at hrc hk
    omega
  have hgt : ps.countP
      (fun y => decide (getChangeByMetric x metric < getChangeByMetric y metric)) < k := by
    have hperm : List.Perm (sortDesc metric ps) ps := List.mergeSort_perm ps _
    rw [← hperm.countP_eq]
    refine countP_take_bound _ _ k x hxt (decide_eq_false (lt_irrefl _)) ?_
    intro y hy
    exact decide_eq_false (not_lt.mpr (sortDesc_take_drop_le metric ps k x y hxt hy))
  have hlt : ps.countP
      (fun y => decide (getChangeByMetric y metric < getChangeByMetric x metric)) < k := by
    have hperm : List.Perm (sortAsc metric ps) ps := List.mergeSort_perm ps _
    rw [← hperm.countP_eq]
    refine countP_take_bound _ _ k x hxw (decide_eq_false (lt_irrefl _)) ?_
    intro y hy
    exact decide_eq_false (not_lt.mpr (sortAsc_take_drop_ge metric ps k x y hxw hy))
  have heq := countP_eq_metric_le_one metric (getChangeByMetric x metric) ps hdist
  have hpart := countP_metric_partition metric x ps
  omega

/-- Two distinct records tied on every metric, for the C5 counterexample. -/
def c5pairs : List CurrencyPair := [mkPair "AAA/BBB" 1, mkPair "CCC/DDD" 2]

unseal List.merge List.mergeSort in
/-- C5 counterexample.  Two distinct records tied on the metric, `n = 1`
and `2n ≤ size`: both the top-1 and the worst-1 slice return the SAME
record (on a tie the 2-element `std::sort` of both directions leaves the
input order, as does this model), so the two sets are NOT disjoint and
the claim fails without a distinct-values hypothesis. -/
theorem tied_performers_not_disjoint :
    getTopPerformers "Percent Change" 1 c5pairs = some [mkPair "AAA/BBB" 1] ∧
    getWorstPerformers "Percent Change" 1 c5pairs = some [mkPair "AAA/BBB" 1] ∧
    2 * (1 : Int) ≤ (c5pairs.length : Int) :=
  ⟨rfl, rfl, by decide⟩

/-- Distinct-valued collection for the C5 witness (metric values 7 > 3,
already in descending order). -/
def c5w : List CurrencyPair :=
  [mkCurrencyPair "AAA/BBB" 1 0 7 0 0 0 0 "" "",
   mkCurrencyPair "CCC/DDD" 1 0 3 0 0 0 0 "" ""]

unseal List.merge List.mergeSort in
/-- Witness for `performers_disjoint`: with distinct metric values 7 and
3 and `n = 1`, the top-1 record does not occur in the worst-1 slice. -/
theorem performers_disjoint_witness :
    mkCurrencyPair "AAA/BBB" 1 0 7 0 0 0 0 "" "" ∉
      [mkCurrencyPair "CCC/DDD" 1 0 3 0 0 0 0 "" ""] :=
  fun hmem =>
    performers_disjoint "Percent Change" 1 c5w
      [mkCurrencyPair "AAA/BBB" 1 0 7 0 0 0 0 "" ""]
      [mkCurrencyPair "CCC/DDD" 1 0 3 0 0 0 0 "" ""]
      rfl rfl (by decide)
      (by
        refine List.Pairwise.cons ?_ (List.pairwise_singleton _ _)
        intro v hv
        rw [List.mem_singleton] at hv
        subst hv
        decide)
      (mkCurrencyPair "AAA/BBB" 1 0 7 0 0 0 0 "" "") (by decide) hmem

/-! ### Pair inversion -/

theorem splitAtSlash_append (b q : List Char) (hb : '/' ∉ b) :
    splitAtSlash (b ++ '/' :: q) = some (b, q) := by
  induction b with
  | nil => simp [splitAtSlash]
  | cons c rest ih =>
    have hc : c ≠ '/' := fun h => hb (h ▸ List.mem_cons_self _ _)
    simp only [List.cons_append, splitAtSlash, if_neg hc]
    rw [List.append_eq, ih (fun h => hb (List.mem_cons_of_mem _ h))]

/-- The parse-independent fields of an inverted pair (both branches of
the constructor's match store the same pair code, price and metrics). -/
theorem getInvertedPair_main_fields (p : CurrencyPair) :
    (getInvertedPair p).pairCode = p.quoteCurrency ++ "/" ++ p.baseCurrency ∧
    (getInvertedPair p).price = 1 / p.price ∧
    (getInvertedPair p).dayChange = -p.dayChange / (p.price * p.price) ∧
    (getInvertedPair p).percentChange = invertPercentage p.percentChange ∧
    (getInvertedPair p).weeklyChange = invertPercentage p.weeklyChange ∧
    (getInvertedPair p).monthlyChange = invertPercentage p.monthlyChange ∧
    (getInvertedPair p).ytdChange = invertPercentage p.ytdChange ∧
    (getInvertedPair p).yoyChange = invertPercentage p.yoyChange := by
  unfold getInvertedPair mkCurrencyPair
  split <;> exact ⟨rfl, rfl, rfl, rfl, rfl, rfl, rfl, rfl⟩

/-- When the quote currency is slash-free, the inverted pair's re-parse
recovers the swapped currencies. -/
theorem getInvertedPair_currency_fields (p : CurrencyPair)
    (hq : '/' ∉ p.quoteCurrency.data) :
    (getInvertedPair p).baseCurrency = p.quoteCurrency ∧
    (getInvertedPair p).quoteCurrency = p.baseCurrency := by
  unfold getInvertedPair mkCurrencyPair
  have hdata : (p.quoteCurrency ++ "/" ++ p.baseCurrency).data
      = p.quoteCurrency.data ++ '/' :: p.baseCurrency.data := by
    simp [String.data_append]
  rw [hdata, splitAtSlash_append _ _ hq]
  exact ⟨rfl, rfl⟩

theorem invertPercentage_involutive (c : ℚ) :
    invertPercentage (invertPercentage c) = c := by
  unfold invertPercentage
  have key : 1 + ((1 / (1 + c / 100) - 1) * 100) / 100 = 1 / (1 + c / 100) := by ring
  rw [key, one_div_one_div]
  ring

/-- Quote record for the C9 counterexample: pair code with two slashes. -/
def c9bad : CurrencyPair := mkCurrencyPair "A/B/C" 2 0 0 0 0 0 0 "" ""

/-- C9 counterexample.  The record's pair code `"A/B/C"` contains the
`'/'` separator, its price is positive and every percent metric differs
from −100 — all the claim's hypotheses hold — yet double inversion
returns pair code `"C/A/B"` ≠ `"A/B/C"`: the constructor splits at the
FIRST slash, so a quote currency containing `'/'` breaks the round
trip.  The claim needs "exactly one separator", not "contains the
separator". -/
theorem multi_slash_double_inversion_differs :
    '/' ∈ c9bad.pairCode.data ∧
    0 < c9bad.price ∧
    c9bad.percentChange ≠ -100 ∧ c9bad.weeklyChange ≠ -100 ∧
    c9bad.monthlyChange ≠ -100 ∧ c9bad.ytdChange ≠ -100 ∧ c9bad.yoyChange ≠ -100 ∧
    (getInvertedPair (getInvertedPair c9bad)).pairCode = "C/A/B" ∧
    "C/A/B" ≠ c9bad.pairCode := by
  exact ⟨by decide, by decide, by decide, by decide, by decide, by decide, by decide,
    rfl, by decide⟩

/-- C9 amended: for a record whose pair code is `base/quote` with a
slash-free quote currency (i.e. the code has exactly one separator),
positive price, and percent metrics ≠ −100, double inversion restores
the pair code, the price, every percent metric AND the day-change
absolute exactly (in this exact-rational model the first-order
`−dayChange/price²` approximation composes to the identity; C++ doubles
incur only the rounding the claim already allows). -/
theorem double_inversion_identity (p : CurrencyPair)
    (hcode : p.pairCode = p.baseCurrency ++ "/" ++ p.quoteCurrency)
    (hq : '/' ∉ p.quoteCurrency.data)
    (hp : 0 < p.price)
    (h1 : p.percentChange ≠ -100) (h2 : p.weeklyChange ≠ -100)
    (h3 : p.monthlyChange ≠ -100) (h4 : p.ytdChange ≠ -100)
    (h5 : p.yoyChange ≠ -100) :
    (getInvertedPair (getInvertedPair p)).pairCode = p.pairCode ∧
    (getInvertedPair (getInvertedPair p)).price = p.price ∧
    (getInvertedPair (getInvertedPair p)).dayChange = p.dayChange ∧
    (getInvertedPair (getInvertedPair p)).percentChange = p.percentChange ∧
    (getInvertedPair (getInvertedPair p)).weeklyChange = p.weeklyChange ∧
    (getInvertedPair (getInvertedPair p)).monthlyChange = p.monthlyChange ∧
    (getInvertedPair (getInvertedPair p)).ytdChange = p.ytdChange ∧
    (getInvertedPair (getInvertedPair p)).yoyChange = p.yoyChange := by
  obtain ⟨hc1, hpr1, hd1, hpc1, hw1, hm1, hy1, hyo1⟩ := getInvertedPair_main_fields p
  obtain ⟨hb1, hq1⟩ := getInvertedPair_currency_fields p hq
  obtain ⟨hc2, hpr2, hd2, hpc2, hw2, hm2, hy2, hyo2⟩ :=
    getInvertedPair_main_fields (getInvertedPair p)
  have hpne : p.price ≠ 0 := ne_of_gt hp
  refine ⟨?_, ?_, ?_, ?_, ?_, ?_, ?_, ?_⟩
  · rw [hc2, hb1, hq1, hcode]
  · rw [hpr2, hpr1, one_div_one_div]
  · rw [hd2, hd1, hpr1]
    field_simp
  · rw [hpc2, hpc1, invertPercentage_involutive]
  · rw [hw2, hw1, invertPercentage_involutive]
  · rw [hm2, hm1, invertPercentage_involutive]
  · rw [hy2, hy1, invertPercentage_involutive]
  · rw [hyo2, hyo1, invertPercentage_involutive]

/-- Witness record for `double_inversion_identity`. -/
def c9w : CurrencyPair := mkCurrencyPair "EUR/USD" 2 1 5 6 7 8 9 "Major" "ts"

/-- Witness for `double_inversion_identity` at a concrete well-formed
record. -/
theorem double_inversion_identity_witness :
    (getInvertedPair (getInvertedPair c9w)).pairCode = c9w.pairCode ∧
    (getInvertedPair (getInvertedPair c9w)).price = c9w.price ∧
    (getInvertedPair (getInvertedPair c9w)).dayChange = c9w.dayChange :=
  have h := double_inversion_identity c9w (by decide) (by decide) (by decide)
    (by decide) (by decide) (by decide) (by decide) (by decide)
  ⟨h.1, h.2.1, h.2.2.1⟩

end CurrencyExchange
